import Mathlib

/-
Shallow embedding of the de Bruijn assembler in src/debruijn/debruijn.py.

Reads, k-mers, nodes and contigs are modelled as lists of characters.
A networkx DiGraph is modelled as an insertion-ordered node list together
with an insertion-ordered edge list (at most one edge per (source, target)
pair, mirroring DiGraph's adjacency dictionaries); iteration order of
nodes, predecessors and successors is therefore insertion order, exactly
as in CPython's dicts.

Machine reals produced by statistics.mean / statistics.stdev are modelled
as exact rationals; the spec (section 4.4) states that equality tests on
these statistics are intended as exact equality.  statistics.stdev l > 0
holds iff the sample variance of l is > 0, so the embedding compares the
variance (a rational) with 0 instead of taking a square root.

Fallible Python operations (statistics on too-few data points, networkx
remove_node / NodeNotFound) are modelled with Except.  The recursive
simplification passes are given explicit fuel; running out of fuel is a
distinguished error that never occurs on terminating executions.

The global random generator (random.seed(9001) at import, random.randint
in select_best_path) is modelled as an explicitly threaded state with a
deterministic next-state function, which is also how CPython's Mersenne
Twister behaves for a fixed seed.
-/

abbrev Node : Type := List Char

/-- Python-level failures that the embedded code can signal. -/
inductive PyErr where
  | statisticsError
  | networkxError
  | nodeNotFound
  | outOfFuel
deriving DecidableEq

/-- A networkx DiGraph: insertion-ordered nodes and weighted edges. -/
structure Graph where
  nodes : List Node
  edges : List (Node × Node × Nat)
deriving DecidableEq

instance : DecidableEq (Except PyErr Graph) := fun a b =>
  match a, b with
  | .ok x, .ok y =>
    if h : x = y then isTrue (by rw [h]) else isFalse (fun hc => by cases hc; exact h rfl)
  | .error x, .error y =>
    if h : x = y then isTrue (by rw [h]) else isFalse (fun hc => by cases hc; exact h rfl)
  | .ok _, .error _ => isFalse (fun hc => by cases hc)
  | .error _, .ok _ => isFalse (fun hc => by cases hc)

instance : DecidableEq (Except PyErr (Graph × Nat)) := fun a b =>
  match a, b with
  | .ok x, .ok y =>
    if h : x = y then isTrue (by rw [h]) else isFalse (fun hc => by cases hc; exact h rfl)
  | .error x, .error y =>
    if h : x = y then isTrue (by rw [h]) else isFalse (fun hc => by cases hc; exact h rfl)
  | .ok _, .error _ => isFalse (fun hc => by cases hc)
  | .error _, .ok _ => isFalse (fun hc => by cases hc)

instance : DecidableEq (Except PyErr ℚ) := fun a b =>
  match a, b with
  | .ok x, .ok y =>
    if h : x = y then isTrue (by rw [h]) else isFalse (fun hc => by cases hc; exact h rfl)
  | .error x, .error y =>
    if h : x = y then isTrue (by rw [h]) else isFalse (fun hc => by cases hc; exact h rfl)
  | .ok _, .error _ => isFalse (fun hc => by cases hc)
  | .error _, .ok _ => isFalse (fun hc => by cases hc)

instance : DecidableEq (Except PyErr (List (List Char × Nat))) := fun a b =>
  match a, b with
  | .ok x, .ok y =>
    if h : x = y then isTrue (by rw [h]) else isFalse (fun hc => by cases hc; exact h rfl)
  | .error x, .error y =>
    if h : x = y then isTrue (by rw [h]) else isFalse (fun hc => by cases hc; exact h rfl)
  | .ok _, .error _ => isFalse (fun hc => by cases hc)
  | .error _, .ok _ => isFalse (fun hc => by cases hc)

/-- cut_kmer (debruijn.py lines 118-125): every window read[i:i+kmer_size]
for i in range(len(read)-kmer_size+1).  Over natural numbers,
`read.length + 1 - kmer_size` equals max(0, len(read)-kmer_size+1). -/
def cut_kmer (read : List Char) (kmer_size : Nat) : List (List Char) :=
  (List.range (read.length + 1 - kmer_size)).map (fun i => (read.drop i).take kmer_size)

/-- kmer_dict[kmer] = kmer_dict.get(kmer, 0) + 1 on an insertion-ordered
dictionary (existing keys keep their position, new keys go to the end). -/
def dictIncr : List (List Char × Nat) → List Char → List (List Char × Nat)
  | [], k => [(k, 1)]
  | (k', c) :: rest, k =>
    if k' = k then (k', c + 1) :: rest else (k', c) :: dictIncr rest k

/-- build_kmer_dict (lines 128-138).  The fastq-file iteration of
read_fastq is external I/O (spec section 1); the embedding takes the read
sequences directly. -/
def build_kmer_dict (reads : List (List Char)) (kmer_size : Nat) : List (List Char × Nat) :=
  reads.foldl (fun d r => (cut_kmer r kmer_size).foldl dictIncr d) []

/-- Total number of k-mer occurrences recorded in a dictionary. -/
def sumValues (d : List (List Char × Nat)) : Nat :=
  (d.map (fun p => p.2)).sum

/-- DiGraph.add_node: appends the node if it is not present. -/
def addNode (g : Graph) (n : Node) : Graph :=
  if n ∈ g.nodes then g else { nodes := g.nodes ++ [n], edges := g.edges }

def hasEdgeKey (g : Graph) (u v : Node) : Bool :=
  g.edges.any (fun e => decide (e.1 = u ∧ e.2.1 = v))

/-- DiGraph.add_edge(u, v, weight=w): inserts both endpoints, then either
updates the weight of the existing (u, v) edge in place or appends a new
edge. -/
def addEdge (g : Graph) (u v : Node) (w : Nat) : Graph :=
  let g1 := addNode (addNode g u) v
  if hasEdgeKey g1 u v then
    { nodes := g1.nodes,
      edges := g1.edges.map (fun e => if e.1 = u ∧ e.2.1 = v then (u, v, w) else e) }
  else
    { nodes := g1.nodes, edges := g1.edges ++ [(u, v, w)] }

/-- build_graph (lines 140-149): one add_edge(kmer[:-1], kmer[1:], weight)
per dictionary entry. -/
def build_graph (kmer_dict : List (List Char × Nat)) : Graph :=
  kmer_dict.foldl (fun g kw => addEdge g kw.1.dropLast (kw.1.drop 1) kw.2) ⟨[], []⟩

/-- DiGraph.predecessors, in in-edge insertion order. -/
def predecessors (g : Graph) (n : Node) : List Node :=
  (g.edges.filter (fun e => decide (e.2.1 = n))).map (fun e => e.1)

/-- DiGraph.successors, in out-edge insertion order. -/
def successors (g : Graph) (n : Node) : List Node :=
  (g.edges.filter (fun e => decide (e.1 = n))).map (fun e => e.2.1)

/-- DiGraph.remove_node: raises NetworkXError when the node is absent,
otherwise removes the node and every incident edge. -/
def removeNode (g : Graph) (n : Node) : Except PyErr Graph :=
  if n ∈ g.nodes then
    .ok { nodes := g.nodes.erase n,
          edges := g.edges.filter (fun e => decide (e.1 ≠ n ∧ e.2.1 ≠ n)) }
  else .error .networkxError

/-- DiGraph.remove_nodes_from: silently skips absent nodes. -/
def removeNodesFrom (g : Graph) (l : List Node) : Graph :=
  l.foldl (fun g2 n =>
    if n ∈ g2.nodes then
      { nodes := g2.nodes.erase n,
        edges := g2.edges.filter (fun e => decide (e.1 ≠ n ∧ e.2.1 ≠ n)) }
    else g2) g

/-- Sequential remove_node over a list (each call can raise). -/
def removeNodesSeq (g : Graph) (l : List Node) : Except PyErr Graph :=
  l.foldlM removeNode g

/-- remove_paths (lines 152-179): per path, delete the whole path, all but
the last node, all but the first node, or the interior, depending on the
two flags.  The four Python branches are exhaustive. -/
def remove_paths (g : Graph) (path_list : List (List Node))
    (delete_entry_node delete_sink_node : Bool) : Except PyErr Graph :=
  path_list.foldlM (fun g2 p =>
    if delete_entry_node && delete_sink_node then .ok (removeNodesFrom g2 p)
    else if delete_entry_node then removeNodesSeq g2 p.dropLast
    else if delete_sink_node then removeNodesSeq g2 (p.drop 1)
    else removeNodesSeq g2 ((p.drop 1).dropLast)) g

/-- DiGraph.subgraph(ns): the subgraph induced by the node set ns. -/
def subgraph (g : Graph) (ns : List Node) : Graph :=
  { nodes := g.nodes.filter (fun n => decide (n ∈ ns)),
    edges := g.edges.filter (fun e => decide (e.1 ∈ ns ∧ e.2.1 ∈ ns)) }

/-- The weights statistics.mean is applied to in path_average_weight:
all edge weights of graph.subgraph(path). -/
def inducedWeights (g : Graph) (p : List Node) : List Nat :=
  (subgraph g p).edges.map (fun e => e.2.2)

/-- path_average_weight (lines 211-220): statistics.mean over the weights
of every edge of the induced subgraph; StatisticsError on an empty list. -/
def path_average_weight (g : Graph) (p : List Node) : Except PyErr ℚ :=
  let ws := inducedWeights g p
  if ws.isEmpty then .error .statisticsError
  else .ok ((ws.map (fun (w : Nat) => (w : ℚ))).sum / (ws.length : ℚ))

/-- The consecutive steps of a node list: (p0,p1), (p1,p2), ... -/
def pathSteps (p : List Node) : List (Node × Node) :=
  p.zip p.tail

/-- The induced-subgraph edge weights that lie on consecutive path
steps (used by the spec-side definition below). -/
def stepWeights (g : Graph) (p : List Node) : List Nat :=
  ((subgraph g p).edges.filter
    (fun e => decide ((e.1, e.2.1) ∈ pathSteps p))).map (fun e => e.2.2)

/-- Spec-side definition (spec section 4.3, for refinement comparison
only): the arithmetic mean of edge weights among induced-subgraph edges
that lie on consecutive path steps, undefined for paths of < 2 nodes. -/
def path_average_weight_spec (g : Graph) (p : List Node) : Except PyErr ℚ :=
  if p.length < 2 then .error .statisticsError
  else
    let ws := stepWeights g p
    if ws.isEmpty then .error .statisticsError
    else .ok ((ws.map (fun (w : Nat) => (w : ℚ))).sum / (ws.length : ℚ))

/-- Python max() on a (nonempty) list; the default is never used by the
embedded callers. -/
def pyMaxD {α : Type} [LinearOrder α] (l : List α) (d : α) : α :=
  match l with
  | [] => d
  | x :: xs => xs.foldl max x

/-- Python list.index(x): index of the first occurrence. -/
def pyIndex {α : Type} [DecidableEq α] : List α → α → Nat
  | [], _ => 0
  | a :: rest, x => if a = x then 0 else pyIndex rest x + 1

/-- The sample variance of a list of rationals. -/
def pyVarianceVal (l : List ℚ) : ℚ :=
  (l.map (fun x => (x - l.sum / (l.length : ℚ)) ^ 2)).sum / ((l.length : ℚ) - 1)

/-- statistics.stdev(l) squared, i.e. the sample variance.  stdev raises
StatisticsError on fewer than two data points; stdev(l) > 0 iff this
variance is > 0 and stdev(l) == 0 iff it is 0, which is how the embedded
select_best_path consumes it. -/
def pyStdevSq (l : List ℚ) : Except PyErr ℚ :=
  if l.length < 2 then .error .statisticsError
  else .ok (pyVarianceVal l)

/-- Deterministic next-state function of the threaded random generator
(CPython's Mersenne Twister is likewise a pure function of its state). -/
def rngNext (s : Nat) : Nat :=
  (s * 1103515245 + 12345) % 2147483648

/-- random.randint(a, b): a value in [a, b] plus the successor state.
Only called with a = 0 ≤ b by the embedded code. -/
def randint (s a b : Nat) : Nat × Nat :=
  let s2 := rngNext s
  (a + s2 % (b - a + 1), s2)

/-- The index-selection logic of select_best_path (lines 199-206):
highest average weight when the weights are spread, else longest path
when the lengths are spread, else a random index. -/
def best_path_index (path_length : List Nat) (weight_avg_list : List ℚ) (s : Nat) :
    Except PyErr (Nat × Nat) :=
  match pyStdevSq weight_avg_list with
  | .error e => .error e
  | .ok wvar =>
    if 0 < wvar then .ok (pyIndex weight_avg_list (pyMaxD weight_avg_list 0), s)
    else
      match pyStdevSq (path_length.map (fun (n : Nat) => (n : ℚ))) with
      | .error e => .error e
      | .ok lvar =>
        if 0 < lvar then .ok (pyIndex path_length (pyMaxD path_length 0), s)
        else .ok (randint s 0 (path_length.length - 1))

/-- [path for i, path in enumerate(path_list) if i != best_path_index],
with i starting at the given counter. -/
def pathsExcept (i : Nat) (l : List (List Node)) (b : Nat) : List (List Node) :=
  match l with
  | [] => []
  | p :: rest => if i = b then pathsExcept (i + 1) rest b else p :: pathsExcept (i + 1) rest b

/-- select_best_path (lines 181-209). -/
def select_best_path (g : Graph) (path_list : List (List Node)) (path_length : List Nat)
    (weight_avg_list : List ℚ) (delete_entry_node delete_sink_node : Bool) (s : Nat) :
    Except PyErr (Graph × Nat) :=
  match best_path_index path_length weight_avg_list s with
  | .error e => .error e
  | .ok bs =>
    match remove_paths g (pathsExcept 0 path_list bs.1) delete_entry_node delete_sink_node with
    | .error e => .error e
    | .ok g' => .ok (g', bs.2)

/-- One round of breadth-first expansion of a reachable set. -/
def reachStep (g : Graph) (acc : List Node) : List Node :=
  acc.foldl (fun a n => a ++ ((successors g n).filter (fun w => decide (w ∉ a)))) acc

def reachAux (g : Graph) : Nat → List Node → List Node
  | 0, acc => acc
  | fuel + 1, acc =>
    let acc2 := reachStep g acc
    if acc2.length = acc.length then acc else reachAux g fuel acc2

/-- Reflexive reachability along directed edges. -/
def reachB (g : Graph) (u v : Node) : Bool :=
  decide (v ∈ reachAux g g.nodes.length [u])

/-- networkx has_path: NodeNotFound when either endpoint is absent. -/
def has_path (g : Graph) (u v : Node) : Except PyErr Bool :=
  if u ∈ g.nodes ∧ v ∈ g.nodes then .ok (reachB g u v) else .error .nodeNotFound

def simplePathsAux (g : Graph) : Nat → Node → Node → List Node → List (List Node)
  | 0, _, _, _ => []
  | fuel + 1, u, v, visited =>
    if u = v then [[u]]
    else
      ((successors g u).filter (fun w => decide (w ∉ u :: visited))).flatMap
        (fun w => (simplePathsAux g fuel w v (u :: visited)).map (fun p => u :: p))

/-- networkx all_simple_paths: NodeNotFound on an absent endpoint, the
empty generator when source equals target, else a depth-first enumeration
of all simple source-to-target paths. -/
def all_simple_paths (g : Graph) (u v : Node) : Except PyErr (List (List Node)) :=
  if u ∈ g.nodes then
    if v ∈ g.nodes then
      if u = v then .ok []
      else .ok (simplePathsAux g (g.nodes.length + 1) u v [])
    else .error .nodeNotFound
  else .error .nodeNotFound

/-- solve_bubble (lines 223-234). -/
def solve_bubble (g : Graph) (ancestor_node descendant_node : Node) (s : Nat) :
    Except PyErr (Graph × Nat) :=
  match all_simple_paths g ancestor_node descendant_node with
  | .error e => .error e
  | .ok path_list =>
    match path_list.mapM (fun p => path_average_weight g p) with
    | .error e => .error e
    | .ok weight_avg_list =>
      select_best_path g path_list (path_list.map (fun p => p.length))
        weight_avg_list false false s

/-- networkx ancestors(G, v) plus v itself: the nodes with a directed
path to v. -/
def ancestorsPlus (g : Graph) (v : Node) : List Node :=
  g.nodes.filter (fun x => reachB g x v)

def lcaDescend (g : Graph) (common : List Node) : Nat → Node → Node
  | 0, c => c
  | fuel + 1, c =>
    match (successors g c).find? (fun w => decide (w ∈ common)) with
    | some w => lcaDescend g common fuel w
    | none => c

/-- networkx lowest_common_ancestor on a DAG (simplify_bubbles only calls
it on DAGs): None when the two nodes have no common ancestor, otherwise a
common ancestor none of whose successors is still a common ancestor
(networkx walks down from an arbitrary common ancestor; the embedding
walks from the first one in node order). -/
def lowest_common_ancestor (g : Graph) (u v : Node) : Option Node :=
  match (ancestorsPlus g u).filter (fun x => decide (x ∈ ancestorsPlus g v)) with
  | [] => none
  | c :: rest => some (lcaDescend g (c :: rest) g.nodes.length c)

/-- The inner j-loop of simplify_bubbles for one fixed predecessor: keeps
assigning ancestor_node and breaks out of this loop alone at the first
non-None result. -/
def jScan (g : Graph) (pu : Node) : List Node → Option Node → Option Node × Bool
  | [], anc => (anc, false)
  | pj :: rest, _ =>
    let a := lowest_common_ancestor g pu pj
    if a.isSome then (a, true) else jScan g pu rest a

/-- The outer i-loop of simplify_bubbles: the j-loop's break does not
leave this loop, so ancestor_node keeps being reassigned for every later
i. -/
def iScan (g : Graph) : List Node → Option Node → Bool → Option Node × Bool
  | [], anc, bubble => (anc, bubble)
  | pu :: rest, anc, bubble =>
    let ab := jScan g pu rest anc
    iScan g rest ab.1 (bubble || ab.2)

/-- The node scan of simplify_bubbles (lines 242-253): stop at the first
node with more than one predecessor for which some predecessor pair has a
lowest common ancestor, and report the final value of the ancestor_node
variable (which those loops may have overwritten, even with None). -/
def findBubbleNode (g : Graph) : List Node → Option (Option Node × Node)
  | [] => none
  | n :: rest =>
    let preds := predecessors g n
    if preds.length > 1 then
      let ab := iScan g preds none false
      if ab.2 then some (ab.1, n) else findBubbleNode g rest
    else findBubbleNode g rest

/-- simplify_bubbles (lines 236-256), with explicit fuel for the
recursive restart.  A None ancestor reaching solve_bubble surfaces as
NodeNotFound, exactly as all_simple_paths(graph, None, node) would. -/
def simplify_bubbles (fuel : Nat) (g : Graph) (s : Nat) : Except PyErr (Graph × Nat) :=
  match fuel with
  | 0 => .error .outOfFuel
  | fuel' + 1 =>
    match findBubbleNode g g.nodes with
    | none => .ok (g, s)
    | some (ancOpt, n) =>
      match ancOpt with
      | none => .error .nodeNotFound
      | some a =>
        match solve_bubble g a n s with
        | .error e => .error e
        | .ok gs => simplify_bubbles fuel' gs.1 gs.2

/-- get_starting_nodes (lines 317-327). -/
def get_starting_nodes (g : Graph) : List Node :=
  g.nodes.filter (fun n => decide ((predecessors g n).length = 0))

/-- get_sink_nodes (lines 330-340). -/
def get_sink_nodes (g : Graph) : List Node :=
  g.nodes.filter (fun n => decide ((successors g n).length = 0))

/-- The path_list accumulation of solve_entry_tips: all simple paths from
every starting node that reaches the branching node. -/
def gatherEntryPaths (g : Graph) (starting : List Node) (n : Node) :
    Except PyErr (List (List Node)) :=
  starting.foldlM (fun acc st => do
    let hp ← has_path g st n
    if hp then do
      let ps ← all_simple_paths g st n
      pure (acc ++ ps)
    else pure acc) []

/-- solve_entry_tips (lines 259-285), with explicit fuel. -/
def solve_entry_tips (fuel : Nat) (g : Graph) (starting : List Node) (s : Nat) :
    Except PyErr (Graph × Nat) :=
  match fuel with
  | 0 => .error .outOfFuel
  | fuel' + 1 =>
    match g.nodes.find? (fun n => decide (n ∉ starting ∧ (predecessors g n).length > 1)) with
    | none => .ok (g, s)
    | some n => do
      let path_list ← gatherEntryPaths g starting n
      if path_list.length > 1 then do
        let weight_avg_list ← path_list.mapM (fun p => path_average_weight g p)
        let path_length := path_list.map (fun p => p.length)
        let gs ← select_best_path g path_list path_length weight_avg_list true false s
        solve_entry_tips fuel' gs.1 (get_starting_nodes gs.1) gs.2
      else .ok (g, s)

/-- The path_list accumulation of solve_out_tips. -/
def gatherExitPaths (g : Graph) (ending : List Node) (n : Node) :
    Except PyErr (List (List Node)) :=
  ending.foldlM (fun acc en => do
    let hp ← has_path g n en
    if hp then do
      let ps ← all_simple_paths g n en
      pure (acc ++ ps)
    else pure acc) []

/-- solve_out_tips (lines 288-314), with explicit fuel. -/
def solve_out_tips (fuel : Nat) (g : Graph) (ending : List Node) (s : Nat) :
    Except PyErr (Graph × Nat) :=
  match fuel with
  | 0 => .error .outOfFuel
  | fuel' + 1 =>
    match g.nodes.find? (fun n => decide (n ∉ ending ∧ (successors g n).length > 1)) with
    | none => .ok (g, s)
    | some n => do
      let path_list ← gatherExitPaths g ending n
      if path_list.length > 1 then do
        let weight_avg_list ← path_list.mapM (fun p => path_average_weight g p)
        let path_length := path_list.map (fun p => p.length)
        let gs ← select_best_path g path_list path_length weight_avg_list false true s
        solve_out_tips fuel' gs.1 (get_sink_nodes gs.1) gs.2
      else .ok (g, s)

/-- get_contigs (lines 343-362): for every start/sink pair joined by a
path, one contig per simple path, spelled as the first node followed by
the last character of every later node. -/
def get_contigs (g : Graph) (starting ending : List Node) :
    Except PyErr (List (List Char × Nat)) :=
  starting.foldlM (fun acc ns =>
    ending.foldlM (fun acc2 ne => do
      let hp ← has_path g ns ne
      if hp then do
        let ps ← all_simple_paths g ns ne
        pure (acc2 ++ ps.map (fun p =>
          let c := p.headD [] ++ (p.drop 1).map (fun nd => nd.getLastD ' ')
          (c, c.length)))
      else pure acc2) acc) []

/-- random.seed(9001) at module import (line 34). -/
def random_seed_constant : Nat := 9001

/-- The core pipeline of main (lines 405-429), reads to contig list:
k-mer counting, graph construction, bubble simplification, entry- and
exit-tip trimming, contig extraction, with the random state threaded from
the module-level seed. -/
def runPipeline (fuel : Nat) (reads : List (List Char)) (kmer_size : Nat) :
    Except PyErr (List (List Char × Nat)) := do
  let d := build_kmer_dict reads kmer_size
  let g0 := build_graph d
  let gs1 ← simplify_bubbles fuel g0 random_seed_constant
  let gs2 ← solve_entry_tips fuel gs1.1 (get_starting_nodes gs1.1) gs1.2
  let gs3 ← solve_out_tips fuel gs2.1 (get_sink_nodes gs2.1) gs2.2
  get_contigs gs3.1 (get_starting_nodes gs3.1) (get_sink_nodes gs3.1)

/- ------------------------------------------------------------------ -/
/- Concrete instances used by the theorems below.                      -/
/- ------------------------------------------------------------------ -/

/-- The round-trip reads of spec section 8. -/
def readsEx : List (List Char) := [['A', 'C', 'G', 'T'], ['C', 'G', 'T', 'A']]

/-- The graph built from readsEx with k = 3. -/
def graphEx : Graph := build_graph (build_kmer_dict readsEx 3)

/-- A DAG in which the first node with more than one predecessor is z,
with predecessors p, q, r (in in-edge order): p and q share the ancestor
a, while q and r have no common ancestor. -/
def gC4 : Graph :=
  { nodes := [['a'], ['p'], ['q'], ['z'], ['r']],
    edges := [(['a'], ['p'], 1), (['a'], ['q'], 1), (['p'], ['z'], 1),
              (['q'], ['z'], 1), (['r'], ['z'], 1)] }

/-- A graph whose induced subgraph on {a, b, c} has the chord a->c in
addition to the consecutive edges of the path a, b, c. -/
def gC2 : Graph :=
  { nodes := [['a'], ['b'], ['c']],
    edges := [(['a'], ['b'], 1), (['b'], ['c'], 1), (['a'], ['c'], 10)] }

/-- A single node carrying a self-loop of weight 5. -/
def gLoop : Graph := { nodes := [['x']], edges := [(['x'], ['x'], 5)] }

/-- Two entry tips s and t converging on m, which continues to e. -/
def gTip : Graph :=
  { nodes := [['s'], ['t'], ['m'], ['e']],
    edges := [(['s'], ['m'], 1), (['t'], ['m'], 9), (['m'], ['e'], 5)] }

/- ------------------------------------------------------------------ -/
/- Theorems.                                                           -/
/- ------------------------------------------------------------------ -/

/-- C9: for reads ["ACGT", "CGTA"] and k = 3 the pipeline produces the
k-mer counts ACG:1, CGT:2, GTA:1, the graph with exactly the nodes AC,
CG, GT, TA and the edges AC->CG (1), CG->GT (2), GT->TA (1), the single
starting node AC and single sink TA, and exactly one extracted contig,
"ACGTA" of length 5. -/
theorem round_trip_example :
    build_kmer_dict readsEx 3 =
      [(['A', 'C', 'G'], 1), (['C', 'G', 'T'], 2), (['G', 'T', 'A'], 1)] ∧
    graphEx.nodes = [['A', 'C'], ['C', 'G'], ['G', 'T'], ['T', 'A']] ∧
    graphEx.edges = [(['A', 'C'], ['C', 'G'], 1), (['C', 'G'], ['G', 'T'], 2),
      (['G', 'T'], ['T', 'A'], 1)] ∧
    get_starting_nodes graphEx = [['A', 'C']] ∧
    get_sink_nodes graphEx = [['T', 'A']] ∧
    get_contigs graphEx [['A', 'C']] [['T', 'A']] =
      .ok [(['A', 'C', 'G', 'T', 'A'], 5)] := by
  decide

/-- C4 (evidence of the code bug): on gC4 the scan finds the bubble at
node z because predecessors p and q share the ancestor a, so the claim
(and spec section 4.5) require resolving the pair (a, z); but the inner
break of the scan does not leave the outer predecessor loop, the
ancestor variable is overwritten with the result for the pair (q, r),
which is None, and simplify_bubbles aborts with NodeNotFound instead of
returning a graph. -/
theorem simplify_bubbles_crash_on_three_predecessors :
    lowest_common_ancestor gC4 ['p'] ['q'] = some ['a'] ∧
    lowest_common_ancestor gC4 ['q'] ['r'] = none ∧
    findBubbleNode gC4 gC4.nodes = some (none, ['z']) ∧
    simplify_bubbles 3 gC4 0 = .error .nodeNotFound := by
  decide

/-- C2 (counterexample): on gC2 the path a, b, c has consecutive-step
weights 1 and 1, so the claimed mean is 1; the code restricts to the
node set and averages over the chord a->c as well, returning 4.  And on
gLoop the single-node path x does not signal an error: the induced
subgraph contains the self-loop, so the code returns its weight 5. -/
theorem path_average_weight_claim_counterexample :
    path_average_weight gC2 [['a'], ['b'], ['c']] = .ok 4 ∧
    path_average_weight_spec gC2 [['a'], ['b'], ['c']] = .ok 1 ∧
    path_average_weight gLoop [['x']] = .ok 5 := by
  have h1 : inducedWeights gC2 [['a'], ['b'], ['c']] = [1, 1, 10] := by decide
  have h2 : stepWeights gC2 [['a'], ['b'], ['c']] = [1, 1] := by decide
  have h3 : inducedWeights gLoop [['x']] = [5] := by decide
  refine ⟨?_, ?_, ?_⟩
  · simp only [path_average_weight, h1]
    norm_num [List.isEmpty_cons]
  · simp only [path_average_weight_spec, h2]
    norm_num [List.isEmpty_cons]
  · simp only [path_average_weight, h3]
    norm_num [List.isEmpty_cons]

/-- C3 (counterexample): called with a single candidate path, the code
does not succeed: statistics.stdev requires at least two data points, so
select_best_path signals StatisticsError on a one-element list just as
on an empty one. -/
theorem select_best_path_singleton_counterexample :
    select_best_path gC2 [[['a'], ['b']]] [2] [1] false false 0 =
      .error .statisticsError := by
  decide

/-- C10: the tie-break randomness is drawn from the generator seeded
with the module constant 9001 and threaded deterministically through the
pipeline, so two runs of the pipeline on the same reads, k-mer size and
fuel produce the same contig list. -/
theorem pipeline_two_run_deterministic (fuel : Nat) (reads : List (List Char))
    (kmer_size : Nat) (o1 o2 : Except PyErr (List (List Char × Nat)))
    (h1 : runPipeline fuel reads kmer_size = o1)
    (h2 : runPipeline fuel reads kmer_size = o2) : o1 = o2 := by
  rw [← h1, ← h2]

/-- Witness for C10 at the concrete round-trip input. -/
theorem pipeline_two_run_deterministic_witness :
    (Except.ok [(['A', 'C', 'G', 'T', 'A'], 5)] :
        Except PyErr (List (List Char × Nat))) =
      Except.ok [(['A', 'C', 'G', 'T', 'A'], 5)] :=
  pipeline_two_run_deterministic 3 readsEx 3 _ _ (by decide) (by decide)

/-- Each dictionary increment raises the total count by exactly one. -/
theorem sumValues_dictIncr (d : List (List Char × Nat)) (k : List Char) :
    sumValues (dictIncr d k) = sumValues d + 1 := by
  induction d with
  | nil => rfl
  | cons p rest ih =>
    obtain ⟨k', c⟩ := p
    by_cases h : k' = k
    · simp only [dictIncr, if_pos h, sumValues, List.map_cons, List.sum_cons]
      omega
    · simp only [dictIncr, if_neg h, sumValues, List.map_cons, List.sum_cons] at *
      omega

/-- Folding a k-mer list into the dictionary adds its length to the
total. -/
theorem sumValues_foldl_dictIncr (ks : List (List Char)) (d : List (List Char × Nat)) :
    sumValues (ks.foldl dictIncr d) = sumValues d + ks.length := by
  induction ks generalizing d with
  | nil => simp
  | cons k rest ih =>
    simp only [List.foldl_cons, List.length_cons, ih, sumValues_dictIncr]
    omega

/-- cut_kmer produces exactly len + 1 - k windows (truncated
subtraction, i.e. max(0, len - k + 1)). -/
theorem cut_kmer_length (r : List Char) (kmer_size : Nat) :
    (cut_kmer r kmer_size).length = r.length + 1 - kmer_size := by
  simp [cut_kmer]

/-- Core counting identity for build_kmer_dict, over any initial
accumulator. -/
theorem sumValues_build_aux (reads : List (List Char)) (kmer_size : Nat)
    (d : List (List Char × Nat)) :
    sumValues (reads.foldl (fun d2 r => (cut_kmer r kmer_size).foldl dictIncr d2) d) =
      sumValues d + (reads.map (fun r => r.length + 1 - kmer_size)).sum := by
  induction reads generalizing d with
  | nil => simp
  | cons r rest ih =>
    simp only [List.foldl_cons, List.map_cons, List.sum_cons, ih,
      sumValues_foldl_dictIncr, cut_kmer_length]
    omega

/-- C8: for every read list and positive k, the total number of k-mer
occurrences counted by build_kmer_dict equals the sum over reads of
max(0, len(read) - k + 1); in particular a read shorter than k
contributes nothing. -/
theorem kmer_count_total (reads : List (List Char)) (kmer_size : Nat)
    (hk : 1 ≤ kmer_size) :
    sumValues (build_kmer_dict reads kmer_size) =
      (reads.map (fun r => ((r.length : ℤ) - kmer_size + 1).toNat)).sum := by
  have h := sumValues_build_aux reads kmer_size []
  have h0 : sumValues [] = 0 := rfl
  rw [build_kmer_dict, h, h0, Nat.zero_add]
  congr 1
  apply List.map_congr_left
  intro r _
  omega

/-- Witness for C8: two reads of lengths 4 and 2 with k = 3 yield 2 + 0
k-mer occurrences. -/
theorem kmer_count_total_witness :
    sumValues (build_kmer_dict [['A', 'C', 'G', 'T'], ['A', 'C']] 3) =
      ([['A', 'C', 'G', 'T'], ['A', 'C']].map
        (fun r => ((r.length : ℤ) - 3 + 1).toNat)).sum :=
  kmer_count_total [['A', 'C', 'G', 'T'], ['A', 'C']] 3 (by decide)

theorem addNode_edges (g : Graph) (n : Node) : (addNode g n).edges = g.edges := by
  unfold addNode
  split <;> rfl

theorem mem_addNode_nodes (g : Graph) (n m : Node) :
    m ∈ (addNode g n).nodes ↔ m ∈ g.nodes ∨ m = n := by
  unfold addNode
  split
  · rename_i h
    constructor
    · exact fun hm => Or.inl hm
    · rintro (hm | rfl)
      · exact hm
      · exact h
  · simp [List.mem_append]

theorem dropLast_drop_one (l : List Char) : l.dropLast.drop 1 = (l.drop 1).dropLast := by
  cases l with
  | nil => rfl
  | cons a t =>
    cases t with
    | nil => rfl
    | cons b t2 => rfl

/-- add_edge preserves the one-character-shift edge invariant and the
absence of isolated nodes. -/
theorem addEdge_pres (k : Nat) (g : Graph) (u v : Node) (w : Nat)
    (hu : u.length = k - 1) (hv : v.length = k - 1)
    (hs : u.drop 1 = v.dropLast) (hw : 1 ≤ w)
    (hE : ∀ e ∈ g.edges, e.1.length = k - 1 ∧ e.2.1.length = k - 1 ∧
      e.1.drop 1 = e.2.1.dropLast ∧ 1 ≤ e.2.2)
    (hN : ∀ n ∈ g.nodes, ∃ e ∈ g.edges, e.1 = n ∨ e.2.1 = n) :
    (∀ e ∈ (addEdge g u v w).edges, e.1.length = k - 1 ∧ e.2.1.length = k - 1 ∧
      e.1.drop 1 = e.2.1.dropLast ∧ 1 ≤ e.2.2) ∧
    (∀ n ∈ (addEdge g u v w).nodes,
      ∃ e ∈ (addEdge g u v w).edges, e.1 = n ∨ e.2.1 = n) := by
  have hge : (addNode (addNode g u) v).edges = g.edges := by
    rw [addNode_edges, addNode_edges]
  by_cases hkey : hasEdgeKey (addNode (addNode g u) v) u v = true
  · have hedges : (addEdge g u v w).edges =
        g.edges.map (fun e => if e.1 = u ∧ e.2.1 = v then (u, v, w) else e) := by
      simp only [addEdge, if_pos hkey, hge]
    have hnodes : (addEdge g u v w).nodes = (addNode (addNode g u) v).nodes := by
      simp only [addEdge, if_pos hkey]
    have hex : ∃ e0 ∈ g.edges, e0.1 = u ∧ e0.2.1 = v := by
      rw [hasEdgeKey, hge, List.any_eq_true] at hkey
      obtain ⟨e0, he0, hc⟩ := hkey
      exact ⟨e0, he0, of_decide_eq_true hc⟩
    constructor
    · intro e he
      rw [hedges] at he
      obtain ⟨e0, he0, rfl⟩ := List.mem_map.mp he
      by_cases hc : e0.1 = u ∧ e0.2.1 = v
      · simp only [if_pos hc]
        exact ⟨hu, hv, hs, hw⟩
      · simp only [if_neg hc]
        exact hE e0 he0
    · intro n hn
      rw [hnodes, mem_addNode_nodes, mem_addNode_nodes] at hn
      rcases hn with (hn | he) | he
      · obtain ⟨e0, he0, hor⟩ := hN n hn
        refine ⟨if e0.1 = u ∧ e0.2.1 = v then (u, v, w) else e0, ?_, ?_⟩
        · rw [hedges]
          exact List.mem_map_of_mem _ he0
        · by_cases hc : e0.1 = u ∧ e0.2.1 = v
          · simp only [if_pos hc]
            rcases hor with h1 | h1
            · exact Or.inl (hc.1 ▸ h1)
            · exact Or.inr (hc.2 ▸ h1)
          · simp only [if_neg hc]
            exact hor
      · obtain ⟨e0, he0, hc⟩ := hex
        refine ⟨(u, v, w), ?_, Or.inl he.symm⟩
        rw [hedges]
        exact List.mem_map.mpr ⟨e0, he0, by rw [if_pos hc]⟩
      · obtain ⟨e0, he0, hc⟩ := hex
        refine ⟨(u, v, w), ?_, Or.inr he.symm⟩
        rw [hedges]
        exact List.mem_map.mpr ⟨e0, he0, by rw [if_pos hc]⟩
  · have hedges : (addEdge g u v w).edges = g.edges ++ [(u, v, w)] := by
      simp only [addEdge, if_neg hkey, hge]
    have hnodes : (addEdge g u v w).nodes = (addNode (addNode g u) v).nodes := by
      simp only [addEdge, if_neg hkey]
    constructor
    · intro e he
      rw [hedges] at he
      rcases List.mem_append.mp he with h | h
      · exact hE e h
      · rw [List.mem_singleton] at h
        subst h
        exact ⟨hu, hv, hs, hw⟩
    · intro n hn
      rw [hnodes, mem_addNode_nodes, mem_addNode_nodes] at hn
      rcases hn with (hn | he) | he
      · obtain ⟨e0, he0, hor⟩ := hN n hn
        exact ⟨e0, by rw [hedges]; exact List.mem_append_left _ he0, hor⟩
      · exact ⟨(u, v, w),
          by rw [hedges]; exact List.mem_append_right _ (List.mem_singleton_self _),
          Or.inl he.symm⟩
      · exact ⟨(u, v, w),
          by rw [hedges]; exact List.mem_append_right _ (List.mem_singleton_self _),
          Or.inr he.symm⟩

/-- The build_graph fold preserves the invariants from any starting
graph. -/
theorem build_graph_aux (k : Nat) (d : List (List Char × Nat)) (g : Graph)
    (hd : ∀ p ∈ d, p.1.length = k ∧ 1 ≤ p.2)
    (hE : ∀ e ∈ g.edges, e.1.length = k - 1 ∧ e.2.1.length = k - 1 ∧
      e.1.drop 1 = e.2.1.dropLast ∧ 1 ≤ e.2.2)
    (hN : ∀ n ∈ g.nodes, ∃ e ∈ g.edges, e.1 = n ∨ e.2.1 = n) :
    (∀ e ∈ (d.foldl (fun g2 kw => addEdge g2 kw.1.dropLast (kw.1.drop 1) kw.2) g).edges,
      e.1.length = k - 1 ∧ e.2.1.length = k - 1 ∧
      e.1.drop 1 = e.2.1.dropLast ∧ 1 ≤ e.2.2) ∧
    (∀ n ∈ (d.foldl (fun g2 kw => addEdge g2 kw.1.dropLast (kw.1.drop 1) kw.2) g).nodes,
      ∃ e ∈ (d.foldl (fun g2 kw => addEdge g2 kw.1.dropLast (kw.1.drop 1) kw.2) g).edges,
      e.1 = n ∨ e.2.1 = n) := by
  induction d generalizing g with
  | nil => exact ⟨hE, hN⟩
  | cons p rest ih =>
    obtain ⟨km, w⟩ := p
    obtain ⟨hlen, hw⟩ := hd (km, w) (List.mem_cons_self _ _)
    have h1 : km.dropLast.length = k - 1 := by rw [List.length_dropLast, hlen]
    have h2 : (km.drop 1).length = k - 1 := by rw [List.length_drop, hlen]
    have h3 : km.dropLast.drop 1 = (km.drop 1).dropLast := dropLast_drop_one km
    have hnext := addEdge_pres k g km.dropLast (km.drop 1) w h1 h2 h3 hw hE hN
    simp only [List.foldl_cons]
    exact ih _ (fun q hq => hd q (List.mem_cons_of_mem _ hq)) hnext.1 hnext.2

/-- C6: if every key of the k-mer dictionary has length k (k at least 2)
and every count is at least 1, then every edge (A, B) of the built graph
satisfies A[1:] = B[:-1], both endpoints have length k - 1, the weight
is at least 1, and no node of the graph is isolated. -/
theorem build_graph_edge_invariant (kmer_dict : List (List Char × Nat)) (k : Nat)
    (hk : 2 ≤ k) (hd : ∀ p ∈ kmer_dict, p.1.length = k ∧ 1 ≤ p.2) :
    (∀ e ∈ (build_graph kmer_dict).edges,
      e.1.length = k - 1 ∧ e.2.1.length = k - 1 ∧
      e.1.drop 1 = e.2.1.dropLast ∧ 1 ≤ e.2.2) ∧
    (∀ n ∈ (build_graph kmer_dict).nodes,
      ∃ e ∈ (build_graph kmer_dict).edges, e.1 = n ∨ e.2.1 = n) := by
  rw [build_graph]
  exact build_graph_aux k kmer_dict ⟨[], []⟩ hd
    (fun e he => absurd he (List.not_mem_nil e))
    (fun n hn => absurd hn (List.not_mem_nil n))

/-- Witness for C6 at the dictionary of the round-trip reads. -/
theorem build_graph_edge_invariant_witness :
    (∀ e ∈ (build_graph (build_kmer_dict readsEx 3)).edges,
      e.1.length = 3 - 1 ∧ e.2.1.length = 3 - 1 ∧
      e.1.drop 1 = e.2.1.dropLast ∧ 1 ≤ e.2.2) ∧
    (∀ n ∈ (build_graph (build_kmer_dict readsEx 3)).nodes,
      ∃ e ∈ (build_graph (build_kmer_dict readsEx 3)).edges, e.1 = n ∨ e.2.1 = n) :=
  build_graph_edge_invariant (build_kmer_dict readsEx 3) 3 (by decide) (by decide)

theorem sumsq_nonneg (l : List ℚ) (m : ℚ) :
    0 ≤ (l.map (fun x => (x - m) ^ 2)).sum := by
  apply List.sum_nonneg
  intro x hx
  obtain ⟨y, _, rfl⟩ := List.mem_map.mp hx
  exact sq_nonneg _

theorem sumsq_eq_zero_iff (l : List ℚ) (m : ℚ) :
    (l.map (fun x => (x - m) ^ 2)).sum = 0 ↔ ∀ x ∈ l, x = m := by
  induction l with
  | nil => simp
  | cons a t ih =>
    simp only [List.map_cons, List.sum_cons, List.mem_cons]
    constructor
    · intro h
      have h1 := (add_eq_zero_iff_of_nonneg (sq_nonneg (a - m)) (sumsq_nonneg t m)).mp h
      have ha : a = m := by
        have := (pow_eq_zero_iff (two_ne_zero)).mp h1.1
        exact sub_eq_zero.mp this
      refine fun x hx => ?_
      rcases hx with rfl | hx
      · exact ha
      · exact (ih.mp h1.2) x hx
    · intro h
      have ha : a - m = 0 := sub_eq_zero.mpr (h a (Or.inl rfl))
      have ht : (t.map (fun x => (x - m) ^ 2)).sum = 0 :=
        ih.mpr (fun x hx => h x (Or.inr hx))
      rw [ha, ht]
      ring

theorem allEq_eq_mean (l : List ℚ) (h2 : 2 ≤ l.length)
    (h : ∀ x ∈ l, ∀ y ∈ l, x = y) : ∀ x ∈ l, x = l.sum / (l.length : ℚ) := by
  cases l with
  | nil => intro x hx; cases hx
  | cons a t =>
    have hall : ∀ x ∈ a :: t, x = a := fun x hx => h x hx a (List.mem_cons_self a t)
    have hsum : (a :: t).sum = (a :: t).length • a := List.sum_eq_card_nsmul _ a hall
    have hlen : ((a :: t).length : ℚ) ≠ 0 := by
      have : 0 < (a :: t).length := by simp
      exact_mod_cast Nat.pos_iff_ne_zero.mp this
    intro x hx
    rw [hall x hx, hsum, nsmul_eq_mul, mul_comm, mul_div_assoc, div_self hlen, mul_one]

theorem variance_den_pos (l : List ℚ) (h2 : 2 ≤ l.length) :
    (0 : ℚ) < (l.length : ℚ) - 1 := by
  have : (2 : ℚ) ≤ (l.length : ℚ) := by exact_mod_cast h2
  linarith

theorem variance_nonneg (l : List ℚ) (h2 : 2 ≤ l.length) : 0 ≤ pyVarianceVal l :=
  div_nonneg (sumsq_nonneg l _) (le_of_lt (variance_den_pos l h2))

theorem variance_eq_zero_iff (l : List ℚ) (h2 : 2 ≤ l.length) :
    pyVarianceVal l = 0 ↔ ∀ x ∈ l, ∀ y ∈ l, x = y := by
  rw [pyVarianceVal, div_eq_zero_iff]
  have hne : ((l.length : ℚ) - 1) ≠ 0 := ne_of_gt (variance_den_pos l h2)
  simp only [hne, or_false]
  rw [sumsq_eq_zero_iff]
  constructor
  · intro h x hx y hy
    rw [h x hx, h y hy]
  · exact allEq_eq_mean l h2

theorem variance_pos_iff (l : List ℚ) (h2 : 2 ≤ l.length) :
    0 < pyVarianceVal l ↔ ¬ (∀ x ∈ l, ∀ y ∈ l, x = y) := by
  rw [← variance_eq_zero_iff l h2]
  constructor
  · intro h hz
    rw [hz] at h
    exact lt_irrefl 0 h
  · intro h
    exact lt_of_le_of_ne (variance_nonneg l h2) (Ne.symm h)

theorem pyStdevSq_eq_ok (l : List ℚ) (h2 : 2 ≤ l.length) :
    pyStdevSq l = .ok (pyVarianceVal l) := by
  rw [pyStdevSq, if_neg (by omega)]

theorem pyStdevSq_eq_err (l : List ℚ) (h2 : l.length < 2) :
    pyStdevSq l = .error .statisticsError := by
  rw [pyStdevSq, if_pos h2]

theorem foldl_max_le {α : Type} [LinearOrder α] (xs : List α) (x : α) :
    x ≤ xs.foldl max x ∧ ∀ y ∈ xs, y ≤ xs.foldl max x := by
  induction xs generalizing x with
  | nil => simp
  | cons a t ih =>
    simp only [List.foldl_cons, List.mem_cons]
    have h1 := ih (max x a)
    refine ⟨le_trans (le_max_left x a) h1.1, ?_⟩
    intro y hy
    rcases hy with rfl | hy
    · exact le_trans (le_max_right x y) h1.1
    · exact h1.2 y hy

theorem foldl_max_mem {α : Type} [LinearOrder α] (xs : List α) (x : α) :
    xs.foldl max x = x ∨ xs.foldl max x ∈ xs := by
  induction xs generalizing x with
  | nil => exact Or.inl rfl
  | cons a t ih =>
    simp only [List.foldl_cons, List.mem_cons]
    rcases ih (max x a) with h | h
    · rcases max_choice x a with hx | hx
      · exact Or.inl (h.trans hx)
      · exact Or.inr (Or.inl (h.trans hx))
    · exact Or.inr (Or.inr h)

theorem pyMaxD_mem {α : Type} [LinearOrder α] (l : List α) (d : α) (hne : l ≠ []) :
    pyMaxD l d ∈ l := by
  cases l with
  | nil => exact absurd rfl hne
  | cons a t =>
    show t.foldl max a ∈ a :: t
    rcases foldl_max_mem t a with h | h
    · rw [h]
      exact List.mem_cons_self _ _
    · exact List.mem_cons_of_mem _ h

theorem le_pyMaxD {α : Type} [LinearOrder α] (l : List α) (d : α) (x : α) (hx : x ∈ l) :
    x ≤ pyMaxD l d := by
  cases l with
  | nil => cases hx
  | cons a t =>
    rcases List.mem_cons.mp hx with rfl | h
    · exact (foldl_max_le t x).1
    · exact (foldl_max_le t a).2 x h

theorem pyIndex_lt_length {α : Type} [DecidableEq α] (l : List α) (x : α) (hx : x ∈ l) :
    pyIndex l x < l.length := by
  induction l with
  | nil => cases hx
  | cons a t ih =>
    rw [pyIndex]
    by_cases h : a = x
    · rw [if_pos h]
      simp
    · rw [if_neg h]
      have hxt : x ∈ t := by
        rcases List.mem_cons.mp hx with rfl | ht
        · exact absurd rfl h
        · exact ht
      simpa [List.length_cons] using Nat.succ_lt_succ (ih hxt)

theorem pyIndex_eq_of_first {α : Type} [DecidableEq α] (l : List α) (x : α) (j : Nat)
    (hj : j < l.length) (hx : l.get ⟨j, hj⟩ = x)
    (hbefore : ∀ i (hi : i < l.length), i < j → l.get ⟨i, hi⟩ ≠ x) :
    pyIndex l x = j := by
  induction l generalizing j with
  | nil => exact absurd hj (Nat.not_lt_zero j)
  | cons a t ih =>
    cases j with
    | zero =>
      have ha : a = x := by simpa using hx
      rw [pyIndex, if_pos ha]
    | succ j' =>
      have ha : a ≠ x := by
        have := hbefore 0 (by simp) (Nat.succ_pos j')
        simpa using this
      rw [pyIndex, if_neg ha]
      have hj' : j' < t.length := by simpa using hj
      have hx' : t.get ⟨j', hj'⟩ = x := by simpa using hx
      have hb' : ∀ i (hi : i < t.length), i < j' → t.get ⟨i, hi⟩ ≠ x := by
        intro i hi hij
        have := hbefore (i + 1) (by simpa using Nat.succ_lt_succ hi) (Nat.succ_lt_succ hij)
        simpa using this
      rw [ih j' hj' hx' hb']

theorem pyIndex_pyMaxD_of_strict {α : Type} [LinearOrder α] [DecidableEq α]
    (l : List α) (d : α) (j : Nat) (hj : j < l.length)
    (hstrict : ∀ i (hi : i < l.length), i ≠ j → l.get ⟨i, hi⟩ < l.get ⟨j, hj⟩) :
    pyIndex l (pyMaxD l d) = j := by
  have hne : l ≠ [] := by
    intro h
    rw [h] at hj
    exact absurd hj (Nat.not_lt_zero j)
  obtain ⟨⟨i, hi⟩, hgi⟩ := List.mem_iff_get.mp (pyMaxD_mem l d hne)
  have hub : pyMaxD l d ≤ l.get ⟨j, hj⟩ := by
    rw [← hgi]
    by_cases hij : i = j
    · subst hij
      exact le_refl _
    · exact le_of_lt (hstrict i hi hij)
  have heq : pyMaxD l d = l.get ⟨j, hj⟩ :=
    le_antisymm hub (le_pyMaxD l d _ (List.get_mem l j hj))
  apply pyIndex_eq_of_first l (pyMaxD l d) j hj heq.symm
  intro i hi hij
  have hlt := hstrict i hi (Nat.ne_of_lt hij)
  rw [← heq] at hlt
  exact ne_of_lt hlt

/-- Exhaustive description of which branch of select_best_path's index
computation produced a successful result. -/
theorem best_path_index_cases (lens : List Nat) (ws : List ℚ) (s b s' : Nat)
    (h : best_path_index lens ws s = .ok (b, s')) :
    2 ≤ ws.length ∧
    ((0 < pyVarianceVal ws ∧ b = pyIndex ws (pyMaxD ws 0) ∧ s' = s) ∨
     (¬ 0 < pyVarianceVal ws ∧ 2 ≤ lens.length ∧
       0 < pyVarianceVal (lens.map (fun (n : Nat) => (n : ℚ))) ∧
       b = pyIndex lens (pyMaxD lens 0) ∧ s' = s) ∨
     (¬ 0 < pyVarianceVal ws ∧ 2 ≤ lens.length ∧
       ¬ 0 < pyVarianceVal (lens.map (fun (n : Nat) => (n : ℚ))) ∧
       b = rngNext s % lens.length ∧ s' = rngNext s)) := by
  rw [best_path_index] at h
  split at h
  · exact Except.noConfusion h
  · rename_i wvar heq
    have hw2 : 2 ≤ ws.length := by
      by_contra hlt
      push_neg at hlt
      rw [pyStdevSq_eq_err ws hlt] at heq
      exact Except.noConfusion heq
    have hwv : pyVarianceVal ws = wvar := by
      rw [pyStdevSq_eq_ok ws hw2] at heq
      injection heq
    subst hwv
    refine ⟨hw2, ?_⟩
    split at h
    · rename_i hv
      injection h with h3
      injection h3 with h4 h5
      exact Or.inl ⟨hv, h4.symm, h5.symm⟩
    · rename_i hv
      split at h
      · exact Except.noConfusion h
      · rename_i lvar heq2
        have hl2 : 2 ≤ lens.length := by
          by_contra hlt
          push_neg at hlt
          have hm : (lens.map (fun (n : Nat) => (n : ℚ))).length < 2 := by
            rw [List.length_map]
            exact hlt
          rw [pyStdevSq_eq_err _ hm] at heq2
          exact Except.noConfusion heq2
        have hm2 : 2 ≤ (lens.map (fun (n : Nat) => (n : ℚ))).length := by
          rw [List.length_map]
          exact hl2
        have hlv : pyVarianceVal (lens.map (fun (n : Nat) => (n : ℚ))) = lvar := by
          rw [pyStdevSq_eq_ok _ hm2] at heq2
          injection heq2
        subst hlv
        split at h
        · rename_i hpos
          injection h with h3
          injection h3 with h4 h5
          exact Or.inr (Or.inl ⟨hv, hl2, hpos, h4.symm, h5.symm⟩)
        · rename_i hpos
          injection h with h3
          injection h3 with h4 h5
          have hlen1 : lens.length - 1 - 0 + 1 = lens.length := by omega
          rw [hlen1] at h4
          refine Or.inr (Or.inr ⟨hv, hl2, hpos, ?_, h5.symm⟩)
          omega

/-- C1: whenever select_best_path has at least two candidates, the
surviving path (the one whose index is not passed to remove_paths) is
the candidate with the strictly maximum average weight when one exists;
when all weights are equal it is the candidate with the strictly maximum
length when one exists; and in every case the survivor is one of the
input candidates, with the losers and only the losers handed to
remove_paths. -/
theorem select_best_path_policy (g : Graph) (pl : List (List Node)) (lens : List Nat)
    (ws : List ℚ) (s b s' : Nat)
    (h2 : 2 ≤ pl.length) (hwlen : ws.length = pl.length) (hllen : lens.length = pl.length)
    (hbi : best_path_index lens ws s = .ok (b, s')) :
    b < pl.length ∧
    (∀ j (hj : j < ws.length),
      (∀ i (hi : i < ws.length), i ≠ j → ws.get ⟨i, hi⟩ < ws.get ⟨j, hj⟩) → b = j) ∧
    ((∀ x ∈ ws, ∀ y ∈ ws, x = y) →
      ∀ j (hj : j < lens.length),
        (∀ i (hi : i < lens.length), i ≠ j → lens.get ⟨i, hi⟩ < lens.get ⟨j, hj⟩) → b = j) ∧
    (∀ hb : b < pl.length, pl.get ⟨b, hb⟩ ∈ pl) ∧
    (∀ de ds, select_best_path g pl lens ws de ds s =
      (remove_paths g (pathsExcept 0 pl b) de ds).map (fun g2 => (g2, s'))) := by
  obtain ⟨hw2, hcases⟩ := best_path_index_cases lens ws s b s' hbi
  have hwne : ws ≠ [] := by
    intro hnil
    rw [hnil] at hw2
    simp at hw2
  have hbound : b < pl.length := by
    rcases hcases with ⟨hv, hb, _⟩ | ⟨hv, hl2, hlv, hb, _⟩ | ⟨hv, hl2, hlv, hb, _⟩
    · rw [hb, ← hwlen]
      exact pyIndex_lt_length ws _ (pyMaxD_mem ws 0 hwne)
    · rw [hb, ← hllen]
      apply pyIndex_lt_length lens _ (pyMaxD_mem lens 0 ?_)
      intro hnil
      rw [hnil] at hl2
      simp at hl2
    · rw [hb, ← hllen]
      exact Nat.mod_lt _ (by omega)
  refine ⟨hbound, ?_, ?_, ?_, ?_⟩
  · intro j hj hstrict
    have hnall : ¬ (∀ x ∈ ws, ∀ y ∈ ws, x = y) := by
      intro hall
      obtain ⟨i, hi, hij⟩ : ∃ i, ∃ hi : i < ws.length, i ≠ j := by
        by_cases hjz : j = 0
        · exact ⟨1, by omega, by omega⟩
        · exact ⟨0, by omega, Ne.symm hjz⟩
      have hlt := hstrict i hi hij
      have heqv := hall (ws.get ⟨i, hi⟩) (List.get_mem ws i hi)
        (ws.get ⟨j, hj⟩) (List.get_mem ws j hj)
      rw [heqv] at hlt
      exact lt_irrefl _ hlt
    have hv : 0 < pyVarianceVal ws := (variance_pos_iff ws hw2).mpr hnall
    rcases hcases with ⟨_, hb, _⟩ | ⟨hnv, _⟩ | ⟨hnv, _⟩
    · rw [hb]
      exact pyIndex_pyMaxD_of_strict ws 0 j hj hstrict
    · exact absurd hv hnv
    · exact absurd hv hnv
  · intro hall j hj hstrict
    have hnv : ¬ 0 < pyVarianceVal ws := by
      intro hv
      exact (variance_pos_iff ws hw2).mp hv hall
    rcases hcases with ⟨hv, _⟩ | ⟨_, hl2, hlv, hb, _⟩ | ⟨_, hl2, hlv, hb, _⟩
    · exact absurd hv hnv
    · rw [hb]
      exact pyIndex_pyMaxD_of_strict lens 0 j hj hstrict
    · exfalso
      have hml2 : 2 ≤ (lens.map (fun (n : Nat) => (n : ℚ))).length := by
        rw [List.length_map]
        exact hl2
      have hallm : ∀ x ∈ lens.map (fun (n : Nat) => (n : ℚ)),
          ∀ y ∈ lens.map (fun (n : Nat) => (n : ℚ)), x = y := by
        by_contra hn
        exact hlv ((variance_pos_iff _ hml2).mpr hn)
      obtain ⟨i, hi, hij⟩ : ∃ i, ∃ hi : i < lens.length, i ≠ j := by
        by_cases hjz : j = 0
        · exact ⟨1, by omega, by omega⟩
        · exact ⟨0, by omega, Ne.symm hjz⟩
      have hcast := hallm ((lens.get ⟨i, hi⟩ : Nat) : ℚ)
        (List.mem_map_of_mem _ (List.get_mem lens i hi))
        ((lens.get ⟨j, hj⟩ : Nat) : ℚ)
        (List.mem_map_of_mem _ (List.get_mem lens j hj))
      have heqn : lens.get ⟨i, hi⟩ = lens.get ⟨j, hj⟩ := by exact_mod_cast hcast
      have hlt := hstrict i hi hij
      omega
  · intro hb
    exact List.get_mem pl b hb
  · intro de ds
    have hyp : select_best_path g pl lens ws de ds s =
        (match remove_paths g (pathsExcept 0 pl b) de ds with
         | .error e => (.error e : Except PyErr (Graph × Nat))
         | .ok g' => .ok (g', s')) := by
      rw [select_best_path, hbi]
    rw [hyp]
    cases hrp : remove_paths g (pathsExcept 0 pl b) de ds with
    | error e => rfl
    | ok g2 => rfl

/-- Reduction of best_path_index when the weight averages are spread. -/
theorem best_path_index_weights_spread (lens : List Nat) (ws : List ℚ) (s : Nat)
    (h2 : 2 ≤ ws.length) (hv : 0 < pyVarianceVal ws) :
    best_path_index lens ws s = .ok (pyIndex ws (pyMaxD ws 0), s) := by
  rw [best_path_index, pyStdevSq_eq_ok ws h2]
  split
  · rename_i e heq
    exact Except.noConfusion heq
  · rename_i wvar heq
    have hwv : pyVarianceVal ws = wvar := by injection heq
    rw [if_pos (hwv ▸ hv)]

theorem varianceEx_pos : (0 : ℚ) < pyVarianceVal [1, 2] := by
  norm_num [pyVarianceVal, List.map_cons, List.map_nil, List.sum_cons, List.sum_nil,
    List.length_cons, List.length_nil]

theorem pyMaxDEx : pyMaxD ([1, 2] : List ℚ) 0 = 2 := by
  show max (1 : ℚ) 2 = 2
  rw [max_eq_right (by norm_num : (1 : ℚ) ≤ 2)]

theorem pyIndexEx : pyIndex ([1, 2] : List ℚ) 2 = 1 := by
  rw [pyIndex, if_neg (by norm_num), pyIndex, if_pos rfl]

theorem best_path_indexEx : best_path_index [2, 3] [1, 2] 0 = .ok (1, 0) := by
  rw [best_path_index_weights_spread [2, 3] [1, 2] 0 (by decide) varianceEx_pos,
    pyMaxDEx, pyIndexEx]

/-- Witness for C1 at two candidate paths with weights 1 < 2. -/
theorem select_best_path_policy_witness :
    (1 : Nat) < ([[['a']], [['b']]] : List (List Node)).length ∧
    (∀ j (hj : j < ([1, 2] : List ℚ).length),
      (∀ i (hi : i < ([1, 2] : List ℚ).length), i ≠ j →
        ([1, 2] : List ℚ).get ⟨i, hi⟩ < ([1, 2] : List ℚ).get ⟨j, hj⟩) → 1 = j) ∧
    ((∀ x ∈ ([1, 2] : List ℚ), ∀ y ∈ ([1, 2] : List ℚ), x = y) →
      ∀ j (hj : j < ([2, 3] : List Nat).length),
        (∀ i (hi : i < ([2, 3] : List Nat).length), i ≠ j →
          ([2, 3] : List Nat).get ⟨i, hi⟩ < ([2, 3] : List Nat).get ⟨j, hj⟩) → 1 = j) ∧
    (∀ hb : (1 : Nat) < ([[['a']], [['b']]] : List (List Node)).length,
      ([[['a']], [['b']]] : List (List Node)).get ⟨1, hb⟩ ∈
        ([[['a']], [['b']]] : List (List Node))) ∧
    (∀ de ds, select_best_path gC2 [[['a']], [['b']]] [2, 3] [1, 2] de ds 0 =
      (remove_paths gC2 (pathsExcept 0 [[['a']], [['b']]] 1) de ds).map
        (fun g2 => (g2, 0))) :=
  select_best_path_policy gC2 [[['a']], [['b']]] [2, 3] [1, 2] 0 1 0
    (by decide) (by decide) (by decide) best_path_indexEx

/-- Reduction of best_path_index when the weights are tied but the
lengths are spread. -/
theorem best_path_index_lengths_spread (lens : List Nat) (ws : List ℚ) (s : Nat)
    (hw2 : 2 ≤ ws.length) (hl2 : 2 ≤ lens.length)
    (hnv : ¬ 0 < pyVarianceVal ws)
    (hlv : 0 < pyVarianceVal (lens.map (fun (n : Nat) => (n : ℚ)))) :
    best_path_index lens ws s = .ok (pyIndex lens (pyMaxD lens 0), s) := by
  have hm2 : 2 ≤ (lens.map (fun (n : Nat) => (n : ℚ))).length := by
    rw [List.length_map]
    exact hl2
  rw [best_path_index, pyStdevSq_eq_ok ws hw2]
  split
  · rename_i e heq
    exact Except.noConfusion heq
  · rename_i wvar heq
    have hwv : pyVarianceVal ws = wvar := by injection heq
    rw [if_neg (hwv ▸ hnv), pyStdevSq_eq_ok _ hm2]
    split
    · rename_i e heq2
      exact Except.noConfusion heq2
    · rename_i lvar heq2
      have hlval : pyVarianceVal (lens.map (fun (n : Nat) => (n : ℚ))) = lvar := by
        injection heq2
      rw [if_pos (hlval ▸ hlv)]

/-- Reduction of best_path_index when weights and lengths are both
tied: the random tie-break. -/
theorem best_path_index_random (lens : List Nat) (ws : List ℚ) (s : Nat)
    (hw2 : 2 ≤ ws.length) (hl2 : 2 ≤ lens.length)
    (hnv : ¬ 0 < pyVarianceVal ws)
    (hnlv : ¬ 0 < pyVarianceVal (lens.map (fun (n : Nat) => (n : ℚ)))) :
    best_path_index lens ws s = .ok (randint s 0 (lens.length - 1)) := by
  have hm2 : 2 ≤ (lens.map (fun (n : Nat) => (n : ℚ))).length := by
    rw [List.length_map]
    exact hl2
  rw [best_path_index, pyStdevSq_eq_ok ws hw2]
  split
  · rename_i e heq
    exact Except.noConfusion heq
  · rename_i wvar heq
    have hwv : pyVarianceVal ws = wvar := by injection heq
    rw [if_neg (hwv ▸ hnv), pyStdevSq_eq_ok _ hm2]
    split
    · rename_i e heq2
      exact Except.noConfusion heq2
    · rename_i lvar heq2
      have hlval : pyVarianceVal (lens.map (fun (n : Nat) => (n : ℚ))) = lvar := by
        injection heq2
      rw [if_neg (hlval ▸ hnlv)]

/-- Successful index selections stay within the candidate range. -/
theorem best_path_index_lt (pl : List (List Node)) (lens : List Nat) (ws : List ℚ)
    (s b s' : Nat) (hwlen : ws.length = pl.length) (hllen : lens.length = pl.length)
    (h : best_path_index lens ws s = .ok (b, s')) : b < pl.length := by
  obtain ⟨hw2, hcases⟩ := best_path_index_cases lens ws s b s' h
  have hwne : ws ≠ [] := by
    intro hnil
    rw [hnil] at hw2
    simp at hw2
  rcases hcases with ⟨hv, hb, _⟩ | ⟨hv, hl2, hlv, hb, _⟩ | ⟨hv, hl2, hlv, hb, _⟩
  · rw [hb, ← hwlen]
    exact pyIndex_lt_length ws _ (pyMaxD_mem ws 0 hwne)
  · rw [hb, ← hllen]
    apply pyIndex_lt_length lens _ (pyMaxD_mem lens 0 ?_)
    intro hnil
    rw [hnil] at hl2
    simp at hl2
  · rw [hb, ← hllen]
    exact Nat.mod_lt _ (by omega)

/-- C3 (amended): select_best_path signals the statistics error exactly
when called with fewer than two candidate paths — the empty list
included, but also a singleton list, since statistics.stdev demands two
data points.  With at least two candidates the index selection succeeds
and the call returns precisely the outcome of removing the losing
paths (so it succeeds whenever that removal succeeds). -/
theorem select_best_path_arity (g : Graph) (pl : List (List Node)) (lens : List Nat)
    (ws : List ℚ) (de ds : Bool) (s : Nat)
    (hwlen : ws.length = pl.length) (hllen : lens.length = pl.length) :
    (pl.length < 2 → select_best_path g pl lens ws de ds s = .error .statisticsError) ∧
    (2 ≤ pl.length → ∃ b s', b < pl.length ∧
      select_best_path g pl lens ws de ds s =
        (remove_paths g (pathsExcept 0 pl b) de ds).map (fun g2 => (g2, s'))) := by
  constructor
  · intro hlt
    have hberr : best_path_index lens ws s = .error .statisticsError := by
      rw [best_path_index, pyStdevSq_eq_err ws (by omega)]
    rw [select_best_path, hberr]
  · intro h2
    have hok : ∃ b s', best_path_index lens ws s = .ok (b, s') := by
      by_cases hv : 0 < pyVarianceVal ws
      · exact ⟨_, _, best_path_index_weights_spread lens ws s (by omega) hv⟩
      · by_cases hlv : 0 < pyVarianceVal (lens.map (fun (n : Nat) => (n : ℚ)))
        · exact ⟨_, _, best_path_index_lengths_spread lens ws s (by omega) (by omega) hv hlv⟩
        · exact ⟨_, _, best_path_index_random lens ws s (by omega) (by omega) hv hlv⟩
    obtain ⟨b, s', hbi⟩ := hok
    refine ⟨b, s', best_path_index_lt pl lens ws s b s' hwlen hllen hbi, ?_⟩
    have hyp : select_best_path g pl lens ws de ds s =
        (match remove_paths g (pathsExcept 0 pl b) de ds with
         | .error e => (.error e : Except PyErr (Graph × Nat))
         | .ok g' => .ok (g', s')) := by
      rw [select_best_path, hbi]
    rw [hyp]
    cases hrp : remove_paths g (pathsExcept 0 pl b) de ds with
    | error e => rfl
    | ok g2 => rfl

/-- Witness for C3 (amended) with two candidate paths on gC2. -/
theorem select_best_path_arity_witness :
    (([[['a'], ['b'], ['c']], [['a'], ['c']]] : List (List Node)).length < 2 →
      select_best_path gC2 [[['a'], ['b'], ['c']], [['a'], ['c']]] [3, 2] [1, 2]
        false false 0 = .error .statisticsError) ∧
    (2 ≤ ([[['a'], ['b'], ['c']], [['a'], ['c']]] : List (List Node)).length →
      ∃ b s', b < ([[['a'], ['b'], ['c']], [['a'], ['c']]] : List (List Node)).length ∧
        select_best_path gC2 [[['a'], ['b'], ['c']], [['a'], ['c']]] [3, 2] [1, 2]
          false false 0 =
          (remove_paths gC2
            (pathsExcept 0 [[['a'], ['b'], ['c']], [['a'], ['c']]] b) false false).map
              (fun g2 => (g2, s'))) :=
  select_best_path_arity gC2 [[['a'], ['b'], ['c']], [['a'], ['c']]] [3, 2] [1, 2]
    false false 0 (by decide) (by decide)

theorem simplify_bubbles_zero (g : Graph) (s : Nat) :
    simplify_bubbles 0 g s = .error .outOfFuel := rfl

theorem simplify_bubbles_succ (n : Nat) (g : Graph) (s : Nat) :
    simplify_bubbles (n + 1) g s =
      match findBubbleNode g g.nodes with
      | none => .ok (g, s)
      | some (ancOpt, nd) =>
        match ancOpt with
        | none => .error .nodeNotFound
        | some a =>
          match solve_bubble g a nd s with
          | .error e => .error e
          | .ok gs => simplify_bubbles n gs.1 gs.2 := rfl

/-- A graph returned by a terminating simplify_bubbles run contains no
further bubble to resolve. -/
theorem simplify_ok_no_bubble (n : Nat) :
    ∀ (g : Graph) (s : Nat) (r : Graph) (s' : Nat),
      simplify_bubbles n g s = .ok (r, s') → findBubbleNode r r.nodes = none := by
  induction n with
  | zero =>
    intro g s r s' h
    rw [simplify_bubbles_zero] at h
    exact Except.noConfusion h
  | succ n ih =>
    intro g s r s' h
    rw [simplify_bubbles_succ] at h
    split at h
    · rename_i hfb
      injection h with h2
      injection h2 with h3 h4
      rw [← h3]
      exact hfb
    · split at h
      · exact Except.noConfusion h
      · split at h
        · exact Except.noConfusion h
        · rename_i gs hsb
          exact ih gs.1 gs.2 r s' h

/-- C5: if simplify_bubbles terminates (with any fuel) on a graph,
running it again on the result graph and state returns that same graph
and state for every positive fuel, i.e. the pass is idempotent. -/
theorem simplify_bubbles_idempotent (n : Nat) (g : Graph) (s : Nat) (r : Graph) (s' : Nat)
    (h : simplify_bubbles n g s = .ok (r, s')) :
    ∀ m : Nat, simplify_bubbles (m + 1) r s' = .ok (r, s') := by
  intro m
  have hnb := simplify_ok_no_bubble n g s r s' h
  rw [simplify_bubbles_succ, hnb]

/-- Witness for C5 on the bubble-free round-trip graph. -/
theorem simplify_bubbles_idempotent_witness :
    simplify_bubbles 1 graphEx 0 = .ok (graphEx, 0) :=
  simplify_bubbles_idempotent 1 graphEx 0 graphEx 0 (by decide) 0

theorem removeNode_ok (g : Graph) (nd : Node) (g2 : Graph)
    (hnd : g.nodes.Nodup) (h : removeNode g nd = .ok g2) :
    g2.nodes.Nodup ∧ ∀ x, x ∈ g2.nodes ↔ x ∈ g.nodes ∧ x ≠ nd := by
  rw [removeNode] at h
  by_cases hm : nd ∈ g.nodes
  · rw [if_pos hm] at h
    injection h with h2
    subst h2
    constructor
    · exact hnd.erase nd
    · intro x
      rw [show (Graph.mk (g.nodes.erase nd)
          (g.edges.filter (fun e => decide (e.1 ≠ nd ∧ e.2.1 ≠ nd)))).nodes =
          g.nodes.erase nd from rfl]
      rw [List.Nodup.mem_erase_iff hnd]
      tauto
  · rw [if_neg hm] at h
    exact Except.noConfusion h

theorem removeNodesSeq_ok (l : List Node) :
    ∀ (g g2 : Graph), g.nodes.Nodup → removeNodesSeq g l = .ok g2 →
      g2.nodes.Nodup ∧ ∀ x, x ∈ g2.nodes ↔ x ∈ g.nodes ∧ x ∉ l := by
  induction l with
  | nil =>
    intro g g2 hnd h
    have h' : (Except.ok g : Except PyErr Graph) = .ok g2 := h
    injection h' with h2
    subst h2
    exact ⟨hnd, fun x => by simp⟩
  | cons nd rest ih =>
    intro g g2 hnd h
    cases hrn : removeNode g nd with
    | error e =>
      rw [removeNodesSeq, List.foldlM_cons, hrn] at h
      exact Except.noConfusion h
    | ok g1 =>
      rw [removeNodesSeq, List.foldlM_cons, hrn] at h
      obtain ⟨hnd1, hmem1⟩ := removeNode_ok g nd g1 hnd hrn
      obtain ⟨hnd2, hmem2⟩ := ih g1 g2 hnd1 h
      refine ⟨hnd2, fun x => ?_⟩
      rw [hmem2 x, hmem1 x]
      simp only [List.mem_cons, not_or]
      tauto

theorem remove_paths_entry_cons (g : Graph) (p : List Node) (rest : List (List Node)) :
    remove_paths g (p :: rest) true false =
      Except.bind (removeNodesSeq g p.dropLast)
        (fun g1 => remove_paths g1 rest true false) := rfl

/-- With delete_entry_node and not delete_sink_node, a successful
remove_paths deletes exactly the union of the paths' all-but-last
segments from the node set. -/
theorem remove_paths_entry_ok (ps : List (List Node)) :
    ∀ (g g2 : Graph), g.nodes.Nodup → remove_paths g ps true false = .ok g2 →
      g2.nodes.Nodup ∧
      ∀ x, x ∈ g2.nodes ↔ x ∈ g.nodes ∧ ∀ p ∈ ps, x ∉ p.dropLast := by
  induction ps with
  | nil =>
    intro g g2 hnd h
    have h' : (Except.ok g : Except PyErr Graph) = .ok g2 := h
    injection h' with h2
    subst h2
    exact ⟨hnd, fun x => by simp⟩
  | cons p rest ih =>
    intro g g2 hnd h
    rw [remove_paths_entry_cons] at h
    cases hrn : removeNodesSeq g p.dropLast with
    | error e =>
      rw [hrn] at h
      exact Except.noConfusion h
    | ok g1 =>
      rw [hrn] at h
      obtain ⟨hnd1, hmem1⟩ := removeNodesSeq_ok p.dropLast g g1 hnd hrn
      obtain ⟨hnd2, hmem2⟩ := ih g1 g2 hnd1 h
      refine ⟨hnd2, fun x => ?_⟩
      rw [hmem2 x, hmem1 x]
      constructor
      · rintro ⟨⟨hg, hp⟩, hrest⟩
        refine ⟨hg, ?_⟩
        intro q hq
        rcases List.mem_cons.mp hq with rfl | hq2
        · exact hp
        · exact hrest q hq2
      · rintro ⟨hg, hall⟩
        exact ⟨⟨hg, hall p (List.mem_cons_self _ _)⟩,
          fun q hq => hall q (List.mem_cons_of_mem _ hq)⟩

theorem pathsExcept_get_mem (l : List (List Node)) (b : Nat) :
    ∀ (c i : Nat) (hi : i < l.length), c + i ≠ b → l.get ⟨i, hi⟩ ∈ pathsExcept c l b := by
  induction l with
  | nil =>
    intro c i hi
    exact absurd hi (Nat.not_lt_zero i)
  | cons p rest ih =>
    intro c i hi hne
    cases i with
    | zero =>
      rw [pathsExcept, if_neg (by omega)]
      exact List.mem_cons_self _ _
    | succ i' =>
      rw [pathsExcept]
      by_cases hcb : c = b
      · rw [if_pos hcb]
        exact ih (c + 1) i' (by simpa using hi) (by omega)
      · rw [if_neg hcb]
        exact List.mem_cons_of_mem _ (ih (c + 1) i' (by simpa using hi) (by omega))

theorem pathsExcept_subset (l : List (List Node)) (b : Nat) :
    ∀ (c : Nat) (q : List Node), q ∈ pathsExcept c l b → q ∈ l := by
  induction l with
  | nil =>
    intro c q hq
    rw [pathsExcept] at hq
    exact absurd hq (List.not_mem_nil q)
  | cons p rest ih =>
    intro c q hq
    rw [pathsExcept] at hq
    by_cases hcb : c = b
    · rw [if_pos hcb] at hq
      exact List.mem_cons_of_mem _ (ih (c + 1) q hq)
    · rw [if_neg hcb] at hq
      rcases List.mem_cons.mp hq with rfl | hq2
      · exact List.mem_cons_self _ _
      · exact List.mem_cons_of_mem _ (ih (c + 1) q hq2)

/-- C7: when select_best_path is run in the entry-tip configuration
(delete_entry_node true, delete_sink_node false) and succeeds, every
node of each losing candidate path except its last node is no longer a
node of the returned graph, while the shared convergence node t (a graph
node that lies on no candidate's all-but-last segment, as holds for
simple paths ending at t) is still a node of the graph. -/
theorem entry_tip_removal_frame (g : Graph) (pl : List (List Node)) (lens : List Nat)
    (ws : List ℚ) (s : Nat) (t : Node) (g2 : Graph) (s2 : Nat)
    (hnd : g.nodes.Nodup)
    (hwlen : ws.length = pl.length) (hllen : lens.length = pl.length)
    (hsimple : ∀ p ∈ pl, t ∉ p.dropLast)
    (htg : t ∈ g.nodes)
    (hsel : select_best_path g pl lens ws true false s = .ok (g2, s2)) :
    ∃ b, b < pl.length ∧
      (∀ i (hi : i < pl.length), i ≠ b →
        ∀ x ∈ (pl.get ⟨i, hi⟩).dropLast, x ∉ g2.nodes) ∧
      t ∈ g2.nodes := by
  rw [select_best_path] at hsel
  split at hsel
  · exact Except.noConfusion hsel
  · rename_i bs hbi
    split at hsel
    · exact Except.noConfusion hsel
    · rename_i g3 hrp
      injection hsel with h2
      injection h2 with h3 h4
      subst h3
      obtain ⟨hnd2, hmem⟩ := remove_paths_entry_ok (pathsExcept 0 pl bs.1) g g3 hnd hrp
      refine ⟨bs.1, best_path_index_lt pl lens ws s bs.1 bs.2 hwlen hllen hbi, ?_, ?_⟩
      · intro i hi hib x hx hxg2
        have hlose : pl.get ⟨i, hi⟩ ∈ pathsExcept 0 pl bs.1 :=
          pathsExcept_get_mem pl bs.1 0 i hi (by omega)
        exact ((hmem x).mp hxg2).2 _ hlose hx
      · rw [hmem t]
        refine ⟨htg, ?_⟩
        intro p hp
        exact hsimple p (pathsExcept_subset pl bs.1 0 p hp)

theorem varianceTip_pos : (0 : ℚ) < pyVarianceVal [3, 7] := by
  norm_num [pyVarianceVal, List.map_cons, List.map_nil, List.sum_cons, List.sum_nil,
    List.length_cons, List.length_nil]

theorem best_path_indexTip : best_path_index [2, 2] [3, 7] 0 = .ok (1, 0) := by
  rw [best_path_index_weights_spread [2, 2] [3, 7] 0 (by decide) varianceTip_pos]
  rw [show pyMaxD ([3, 7] : List ℚ) 0 = 7 from by
    show max (3 : ℚ) 7 = 7
    rw [max_eq_right (by norm_num : (3 : ℚ) ≤ 7)]]
  rw [show pyIndex ([3, 7] : List ℚ) 7 = 1 from by
    rw [pyIndex, if_neg (by norm_num), pyIndex, if_pos rfl]]

theorem select_tip_eval :
    select_best_path gTip [[['s'], ['m']], [['t'], ['m']]] [2, 2] [3, 7] true false 0 =
      .ok (Graph.mk [['t'], ['m'], ['e']] [(['t'], ['m'], 9), (['m'], ['e'], 5)], 0) := by
  rw [select_best_path, best_path_indexTip]
  decide

/-- Witness for C7 on the two entry tips of gTip: the losing path s, m
loses its non-final node s, while the convergence node m survives. -/
theorem entry_tip_removal_frame_witness :
    ∃ b, b < ([[['s'], ['m']], [['t'], ['m']]] : List (List Node)).length ∧
      (∀ i (hi : i < ([[['s'], ['m']], [['t'], ['m']]] : List (List Node)).length), i ≠ b →
        ∀ x ∈ (([[['s'], ['m']], [['t'], ['m']]] : List (List Node)).get ⟨i, hi⟩).dropLast,
          x ∉ (Graph.mk [['t'], ['m'], ['e']] [(['t'], ['m'], 9), (['m'], ['e'], 5)]).nodes) ∧
      ['m'] ∈ (Graph.mk [['t'], ['m'], ['e']] [(['t'], ['m'], 9), (['m'], ['e'], 5)]).nodes :=
  entry_tip_removal_frame gTip [[['s'], ['m']], [['t'], ['m']]] [2, 2] [3, 7] 0 ['m']
    (Graph.mk [['t'], ['m'], ['e']] [(['t'], ['m'], 9), (['m'], ['e'], 5)]) 0
    (by decide) (by decide) (by decide) (by decide) (by decide) select_tip_eval

theorem pathSteps_mem (p : List Node) :
    ∀ uv ∈ pathSteps p, uv.1 ∈ p ∧ uv.2 ∈ p := by
  induction p with
  | nil =>
    intro uv huv
    exact absurd huv (List.not_mem_nil uv)
  | cons a t ih =>
    intro uv huv
    cases t with
    | nil => exact absurd huv (List.not_mem_nil uv)
    | cons b t2 =>
      rw [pathSteps] at huv
      simp only [List.tail_cons, List.zip_cons_cons] at huv
      rcases List.mem_cons.mp huv with heq | hmem
      · rw [heq]
        exact ⟨List.mem_cons_self _ _, List.mem_cons_of_mem _ (List.mem_cons_self _ _)⟩
      · have huv2 : uv ∈ pathSteps (b :: t2) := hmem
        obtain ⟨h1, h2⟩ := ih uv huv2
        exact ⟨List.mem_cons_of_mem _ h1, List.mem_cons_of_mem _ h2⟩

theorem hasEdgeKey_subgraph (g : Graph) (p : List Node) (uv : Node × Node)
    (huv : uv ∈ pathSteps p) (hk : hasEdgeKey g uv.1 uv.2 = true) :
    hasEdgeKey (subgraph g p) uv.1 uv.2 = true := by
  rw [hasEdgeKey, List.any_eq_true] at hk
  obtain ⟨e, he, hc⟩ := hk
  obtain ⟨hc1, hc2⟩ := of_decide_eq_true hc
  obtain ⟨hm1, hm2⟩ := pathSteps_mem p uv huv
  rw [hasEdgeKey, List.any_eq_true]
  refine ⟨e, ?_, decide_eq_true (And.intro hc1 hc2)⟩
  rw [subgraph]
  apply List.mem_filter.mpr
  refine ⟨he, decide_eq_true ⟨?_, ?_⟩⟩
  · rw [hc1]
    exact hm1
  · rw [hc2]
    exact hm2

/-- C2 (amended): for every node list of at least two nodes whose
consecutive steps are all edges of the graph (a walk), the function
succeeds and returns the arithmetic mean of the weights of ALL edges of
the subgraph induced by the node set — a set that contains every
consecutive-step edge but possibly more; and for every graph and node
list whose induced subgraph has no edges at all, it signals the
statistics error. -/
theorem path_average_weight_induced_mean (g : Graph) (p : List Node)
    (h2 : 2 ≤ p.length)
    (hw : ∀ uv ∈ pathSteps p, hasEdgeKey g uv.1 uv.2 = true) :
    (path_average_weight g p =
      .ok (((inducedWeights g p).map (fun (w : Nat) => (w : ℚ))).sum /
        ((inducedWeights g p).length : ℚ))) ∧
    (∀ uv ∈ pathSteps p, hasEdgeKey (subgraph g p) uv.1 uv.2 = true) ∧
    (∀ (g2 : Graph) (q : List Node), inducedWeights g2 q = [] →
      path_average_weight g2 q = .error .statisticsError) := by
  have hsub : ∀ uv ∈ pathSteps p, hasEdgeKey (subgraph g p) uv.1 uv.2 = true :=
    fun uv huv => hasEdgeKey_subgraph g p uv huv (hw uv huv)
  have hne : inducedWeights g p ≠ [] := by
    obtain ⟨a, b, t, hpeq⟩ : ∃ a b t, p = a :: b :: t := by
      cases p with
      | nil => simp at h2
      | cons a t =>
        cases t with
        | nil => simp at h2
        | cons b t2 => exact ⟨a, b, t2, rfl⟩
    have hstep : ((a, b) : Node × Node) ∈ pathSteps p := by
      rw [hpeq, pathSteps]
      simp only [List.tail_cons, List.zip_cons_cons]
      exact List.mem_cons_self _ _
    have hk := hsub (a, b) hstep
    rw [hasEdgeKey, List.any_eq_true] at hk
    obtain ⟨e, he, _⟩ := hk
    intro hnil
    rw [inducedWeights] at hnil
    rw [List.map_eq_nil_iff] at hnil
    rw [hnil] at he
    exact absurd he (List.not_mem_nil e)
  have hfalse : (inducedWeights g p).isEmpty = false := by
    cases hI : inducedWeights g p with
    | nil => exact absurd hI hne
    | cons a t => rfl
  refine ⟨?_, hsub, ?_⟩
  · show (if (inducedWeights g p).isEmpty = true
        then (Except.error PyErr.statisticsError : Except PyErr ℚ)
        else .ok (((inducedWeights g p).map (fun (w : Nat) => (w : ℚ))).sum /
          ((inducedWeights g p).length : ℚ))) = _
    rw [hfalse, if_neg Bool.false_ne_true]
  · intro g2 q hq
    have htrue : (inducedWeights g2 q).isEmpty = true := by
      rw [hq]
      rfl
    show (if (inducedWeights g2 q).isEmpty = true
        then (Except.error PyErr.statisticsError : Except PyErr ℚ)
        else .ok (((inducedWeights g2 q).map (fun (w : Nat) => (w : ℚ))).sum /
          ((inducedWeights g2 q).length : ℚ))) = Except.error PyErr.statisticsError
    rw [if_pos htrue]

/-- Witness for C2 (amended) on the round-trip chain graph. -/
theorem path_average_weight_induced_mean_witness :
    (path_average_weight graphEx [['A', 'C'], ['C', 'G'], ['G', 'T'], ['T', 'A']] =
      .ok (((inducedWeights graphEx
          [['A', 'C'], ['C', 'G'], ['G', 'T'], ['T', 'A']]).map
            (fun (w : Nat) => (w : ℚ))).sum /
        ((inducedWeights graphEx
          [['A', 'C'], ['C', 'G'], ['G', 'T'], ['T', 'A']]).length : ℚ))) ∧
    (∀ uv ∈ pathSteps [['A', 'C'], ['C', 'G'], ['G', 'T'], ['T', 'A']],
      hasEdgeKey (subgraph graphEx [['A', 'C'], ['C', 'G'], ['G', 'T'], ['T', 'A']])
        uv.1 uv.2 = true) ∧
    (∀ (g2 : Graph) (q : List Node), inducedWeights g2 q = [] →
      path_average_weight g2 q = .error .statisticsError) :=
  path_average_weight_induced_mean graphEx
    [['A', 'C'], ['C', 'G'], ['G', 'T'], ['T', 'A']] (by decide) (by decide)
